import Mathlib

/-!
Verification of `qb_timesheets.py` (a QuickBooks time-sheet CSV translator).

The development shallowly embeds the program's functions:

* `parse_qb`   — the extractor (source lines 100-117): filters "Total" rows,
  strips the first six characters of the project label, parses the duration
  and divides by 8, builds a Python-`dict` (insertion ordered, last value
  wins) and finally sorts descending by value with Python's stable `sorted`.
* `create_chart` / `processFile` — the per-file pipeline of `process_files`
  (source lines 59-79) including the matplotlib availability probe of
  `create_chart` (source lines 120-139).
* `write_csv`  — the CSV reporter (source lines 142-153), including the
  `csv.unix_dialect` (quote-all) serialisation and a reader for it.
* `process_files` traversal — the recursive directory walk (source lines
  44-57), modelled over a rose-tree file system.

Numeric durations are modelled as exact rationals: every value the program
produces is a finite decimal (a parsed decimal divided by 8) and Python 3
float repr round-trips exactly, so the rational model is faithful for the
properties stated here.
-/

/-- One raw input record.  `csv.DictReader` is given the seven field names
`('a', 'project', 'c', 'Date', 'Name', 'Billing Status', 'Duration')`
(source lines 102-104); a row is the corresponding seven-field record. -/
structure Row where
  a : String
  project : String
  c : String
  date : String
  name : String
  billingStatus : String
  duration : String
deriving DecidableEq

/-- Python `s.startswith(t)` (case-sensitive literal check). -/
def pyStartswith (s t : String) : Bool :=
  t.data.isPrefixOf s.data

/-- Python `s[n:]`: drop the first `n` characters (total, never an error). -/
def pyDrop (s : String) (n : Nat) : String :=
  ⟨s.data.drop n⟩

/-- Numeric value of a decimal digit character. -/
def digitVal (c : Char) : Nat := c.toNat - 48

/-- Read a big-endian digit string as a natural number. -/
def readNatDigits (cs : List Char) : Nat :=
  cs.foldl (fun n c => 10 * n + digitVal c) 0

/-- Model of Python `float(s)` on plain decimal literals: an optional sign,
then digits with at most one decimal point and at least one digit.  This is
the subset of `float`'s grammar exercised by QuickBooks duration fields;
anything outside it (the "non-numeric" case) yields `none`, modelling the
`ValueError` that `float` raises.  `parseFloatBody` parses the unsigned
part: digits with at most one decimal point and at least one digit. -/
def parseFloatBody (cs : List Char) : Option ℚ :=
  let ip := cs.takeWhile (fun c => c ≠ '.')
  let rest := cs.dropWhile (fun c => c ≠ '.')
  if rest.isEmpty then
    if ip.all Char.isDigit && !ip.isEmpty then
      some ((readNatDigits ip : ℚ))
    else none
  else
    let fp := rest.tail
    if ip.all Char.isDigit && fp.all Char.isDigit && !(ip.isEmpty && fp.isEmpty) then
      some ((readNatDigits ip : ℚ) + (readNatDigits fp : ℚ) / (10 : ℚ) ^ fp.length)
    else none

/-- Sign handling of `float`: an optional leading `'-'` or `'+'`, the rest
parsed by `parseFloatBody` and negated under a `'-'`. -/
def parseFloat (s : String) : Option ℚ :=
  let cs0 := s.data
  let neg : Bool := cs0.head? = some '-'
  let cs := if cs0.head? = some '-' || cs0.head? = some '+' then cs0.tail else cs0
  (parseFloatBody cs).map (fun x => (if neg then (-1 : ℚ) else 1) * x)

/-- Python `dict` assignment `d[k] = v`: if the key is present its value is
replaced in place (the entry keeps its position), otherwise the pair is
appended; insertion order is preserved (Python 3.7+ semantics). -/
def dinsert : List (String × ℚ) → String → ℚ → List (String × ℚ)
  | [], k, v => [(k, v)]
  | p :: t, k, v =>
    if p.1 = k then (k, v) :: t else p :: dinsert t k v

/-- The loop of `parse_qb` (source lines 106-112): for each row whose
`project` field starts with `'Total'` (five characters — the code checks
`startswith('Total')`), strip the first six characters, parse the duration
and store `duration / 8` under the stripped label; a failing `float` call
aborts the whole file with a `ValueError`. -/
def parseRows : List Row → List (String × ℚ) → Except Unit (List (String × ℚ))
  | [], d => .ok d
  | r :: rs, d =>
    if pyStartswith r.project "Total" then
      match parseFloat r.duration with
      | some q => parseRows rs (dinsert d (pyDrop r.project 6) (q / 8))
      | none => .error ()
    else parseRows rs d

/-- One step of a stable descending insertion sort on the second component:
`x` is placed after every element strictly greater than it and before the
first element less than or equal to it, so equal values keep their original
relative order — exactly the guarantee of Python's stable
`sorted(key=value, reverse=True)` (source line 117). -/
def insertDesc (x : String × ℚ) : List (String × ℚ) → List (String × ℚ)
  | [] => [x]
  | y :: ys => if y.2 > x.2 then y :: insertDesc x ys else x :: y :: ys

/-- Stable descending sort by value.  A stable descending sort of a list is
unique, so this models `sorted(days.items(), key=lambda t: t[1],
reverse=True)` exactly. -/
def sortDesc : List (String × ℚ) → List (String × ℚ)
  | [] => []
  | x :: xs => insertDesc x (sortDesc xs)

/-- `parse_qb` (source lines 100-117): build the `days` dict from the rows,
then return it sorted into descending order of days.  The result is the
`OrderedDict` as an ordered association list; `.error ()` models the
`ValueError` escaping from `float`. -/
def parse_qb (rows : List Row) : Except Unit (List (String × ℚ)) :=
  match parseRows rows [] with
  | .error e => .error e
  | .ok d => .ok (sortDesc d)

/-- The per-row transform of the `parse_qb` loop, as a list of key/value
pairs in row order (before the dict collapses duplicate keys): selected
rows only, key = label minus its first six characters, value = parsed
duration divided by 8. -/
def extractTotals (rows : List Row) : List (String × ℚ) :=
  rows.filterMap (fun r =>
    if pyStartswith r.project "Total" then
      (parseFloat r.duration).map (fun q => (pyDrop r.project 6, q / 8))
    else none)

/-- Python-dict accumulation of a pair list (insertion ordered, last value
wins), starting from a given dict. -/
def pyDictFrom (d : List (String × ℚ)) (l : List (String × ℚ)) : List (String × ℚ) :=
  l.foldl (fun acc p => dinsert acc p.1 p.2) d

/-- Does the pair carry key `k`? -/
def keyIs (k : String) : String × ℚ → Bool :=
  fun p => decide (p.1 = k)

/-- The last value bound to key `k` by the pair list `l`, if any. -/
def lastPair (l : List (String × ℚ)) (k : String) : Option (String × ℚ) :=
  l.reverse.find? (keyIs k)

/-- Smallest exponent `k ≤ d` with `d ∣ 10 ^ k`, if one exists.  A rational
produced by the program always has such an exponent (its denominator divides
a power of ten), and the minimal `k` gives the shortest decimal expansion. -/
def decExpQ (d : Nat) : Option Nat :=
  (List.range (d + 1)).find? (fun k => decide (d ∣ 10 ^ k))

/-- Big-endian decimal digit characters of a natural number (`"0"` for 0). -/
def natDigitsBE (n : Nat) : List Char :=
  if n = 0 then ['0'] else ((Nat.digits 10 n).map (fun d => Char.ofNat (48 + d))).reverse

/-- Digits of `f` left-padded with `'0'` to width `k`. -/
def padDigits (k f : Nat) : List Char :=
  List.replicate (k - (natDigitsBE f).length) '0' ++ natDigitsBE f

/-- Decimal rendering of `m / 10 ^ k` with exactly the shortest fraction
part; integers are rendered with a trailing `".0"` exactly as Python's
`str` renders integral floats. -/
def decChars (m k : Nat) : List Char :=
  if k = 0 then natDigitsBE m ++ ['.', '0']
  else natDigitsBE (m / 10 ^ k) ++ '.' :: padDigits k (m % 10 ^ k)

/-- Model of Python `str(x)` for the float values the program writes.  Every
value is a finite decimal (a parsed decimal duration divided by 8) and
Python 3 renders floats with the shortest round-tripping decimal, which for
such values is exactly their decimal expansion (exponent notation for
extreme magnitudes is outside the program's data and not modelled).
Returns `""` on rationals with no finite decimal expansion, which the
program never produces. -/
def showDays (q : ℚ) : String :=
  match decExpQ q.den with
  | none => ""
  | some k => ⟨(if q.num < 0 then ['-'] else []) ++ decChars (q.num.natAbs * (10 ^ k / q.den)) k⟩

/-- Python `os.path.splitext(s)[0]`: everything before the last dot, the
whole string when there is no dot.  (The special case of a basename whose
only dot is leading, e.g. `".bashrc"`, does not arise here.) -/
def splitextStem (s : String) : String :=
  if s.data.contains '.' then ⟨((s.data.reverse.dropWhile (fun c => c ≠ '.')).drop 1).reverse⟩
  else s

/-- `write_csv` (source lines 142-153): output path is the input path with
its extension replaced by `_out.csv`; the records handed to the CSV writer
are the header `("Project", "Days")` followed by one `[project, str(days)]`
row per summary entry, in the summary's order. -/
def write_csv (fin : String) (times : List (String × ℚ)) : String × List (List String) :=
  (splitextStem fin ++ "_out.csv",
   ["Project", "Days"] :: times.map (fun p => [p.1, showDays p.2]))

/-- Quote-doubling escape used by the csv module inside quoted fields. -/
def escapeQuotes : List Char → List Char
  | [] => []
  | c :: t => if c = '"' then '"' :: '"' :: escapeQuotes t else c :: escapeQuotes t

/-- One field as written by `csv.writer` with `csv.unix_dialect`
(`QUOTE_ALL`): always wrapped in double quotes, inner quotes doubled. -/
def quoteField (f : String) : List Char :=
  '"' :: escapeQuotes f.data ++ ['"']

/-- One record as written by `csv.writer` with `csv.unix_dialect`:
quote-all fields joined by commas, terminated by `'\n'`. -/
def serRow (r : List String) : List Char :=
  (List.intercalate [','] (r.map quoteField)) ++ ['\n']

/-- The text `write_csv` leaves in the output file. -/
def serializeCsv (rows : List (List String)) : String :=
  ⟨(rows.map serRow).flatten⟩

/-- Scanner state for the CSV reader: at the start of a field, inside a
quoted field, or just after a quote inside a field. -/
inductive CsvSt where
  | atField
  | inQ
  | postQ

/-- Model of `csv.reader` on unix-dialect (quote-all) text: `cur` is the
field being read, `row` the fields of the current record, `acc` the
finished records.  Returns `none` on text not in the quote-all format —
the writer never produces such text. -/
def scanCsv : CsvSt → List Char → List Char → List String → List (List String) →
    Option (List (List String))
  | .atField, [], _, row, acc => if row.isEmpty then some acc else none
  | .atField, c :: rest, _, row, acc =>
    if c = '"' then scanCsv .inQ rest [] row acc else none
  | .inQ, [], _, _, _ => none
  | .inQ, c :: rest, cur, row, acc =>
    if c = '"' then scanCsv .postQ rest cur row acc
    else scanCsv .inQ rest (cur ++ [c]) row acc
  | .postQ, [], _, _, _ => none
  | .postQ, c :: rest, cur, row, acc =>
    if c = '"' then scanCsv .inQ rest (cur ++ ['"']) row acc
    else if c = ',' then scanCsv .atField rest [] (row ++ [(⟨cur⟩ : String)]) acc
    else if c = '\n' then scanCsv .atField rest [] [] (acc ++ [row ++ [(⟨cur⟩ : String)]])
    else none

/-- Read back a CSV text written with the unix dialect. -/
def readCsv (s : String) : Option (List (List String)) :=
  scanCsv .atField s.data [] [] []

/-- The command line flags of the program (`-p`, `-s`, `-n`). -/
structure Args where
  plot : Bool
  save_plot : Bool
  no_export : Bool

/-- The bar chart `create_chart` builds: one bar per project in summary
order, height = days booked, x labels = project names, y axis label
`'Days booked'`. -/
structure Chart where
  heights : List ℚ
  labels : List String
  ylabel : String
deriving DecidableEq

/-- The message `create_chart` logs when matplotlib or numpy is missing. -/
def chartMsg : String :=
  "Cannot create chart because matplotlib or numpy is not installed."

/-- The Python exceptions that can escape the per-file pipeline. -/
inductive PyErr where
  | valueError
  | nameError
deriving DecidableEq

/-- `create_chart` (source lines 120-139).  When the plotting libraries are
available it returns the chart.  When the import fails the `except` block
only logs `chartMsg` and control falls through to `np.arange(len(hours))`,
where the unbound name `np` raises a `NameError`: the function logs and
then crashes. -/
def create_chart (avail : Bool) (hours : List (String × ℚ)) :
    List String × Except PyErr Chart :=
  if avail then
    ([], .ok ⟨hours.map (fun p => p.2), hours.map (fun p => p.1), "Days booked"⟩)
  else
    ([chartMsg], .error .nameError)

/-- Everything the per-file pipeline writes or shows for one input file. -/
structure Outputs where
  savedPng : Option String
  shown : Bool
  csv : Option (String × List (List String))
deriving DecidableEq

/-- The per-file body of `process_files` (source lines 59-79): parse the
file (a `ValueError` from `float` propagates), then if `-p` or `-s` was
given build the chart (saving to `<stem>_out.png` under `-s`, showing under
`-p`), and finally, unless `-n` was given, write the summary CSV.  The log
list records the informational messages of `create_chart`. -/
def processFile (args : Args) (avail : Bool) (fin : String) (rows : List Row) :
    List String × Except PyErr Outputs :=
  match parse_qb rows with
  | .error _ => ([], .error .valueError)
  | .ok times =>
    if args.plot || args.save_plot then
      match create_chart avail times with
      | (logs, .error e) => (logs, .error e)
      | (logs, .ok _) =>
        (logs, .ok ⟨if args.save_plot then some (splitextStem fin ++ "_out.png") else none,
                    args.plot,
                    if args.no_export then none else some (write_csv fin times)⟩)
    else
      ([], .ok ⟨none, false, if args.no_export then none else some (write_csv fin times)⟩)

/-- A file-system tree: named files and named directories with an ordered
list of children. -/
inductive FS where
  | file : String → FS
  | dir : String → List FS → FS

/-- Name of a file-system entry. -/
def fsName : FS → String
  | .file n => n
  | .dir n _ => n

/-- Does the entry answer true to `os.path.isdir`? -/
def fsIsDir : FS → Bool
  | .file _ => false
  | .dir _ _ => true

/-- `os.path.join` on POSIX. -/
def pathJoin (p n : String) : String := p ++ "/" ++ n

/-- `os.walk(p)` (top-down): yields `(root, children)` for the directory at
path `p` itself and then, recursively, for every descendant directory.
(`os.walk` separates `dirnames` and `filenames`; here the children are kept
as one ordered list and split by the consumer.) -/
def fsWalk (p : String) (t : FS) : List (String × List FS) :=
  match t with
  | .file _ => []
  | .dir _ cs =>
    (p, cs) :: (cs.attach.map (fun c => fsWalk (pathJoin p (fsName c.1)) c.1)).flatten
termination_by sizeOf t
decreasing_by
  have h := List.sizeOf_lt_of_mem c.2
  simp only [FS.dir.sizeOf_spec]
  omega

/-- `.endswith` check of source line 55: only names ending in `.csv` or
`.CSV` (exactly those two casings) are treated as input files. -/
def shouldProcess (f : String) : Bool :=
  (".csv".data.isSuffixOf f.data) || (".CSV".data.isSuffixOf f.data)

/-- The order in which one `os.walk` entry is iterated by `process_files`
(source lines 48-51): first every subdirectory, then every file. -/
def walkOrder (its : List FS) : List FS :=
  its.filter fsIsDir ++ its.filter (fun c => !fsIsDir c)

/-- `process_files` on one path argument (source lines 44-57), returning
the list of input-file paths it opens and processes, in order and with
multiplicity.  A directory is handled by iterating `os.walk` and calling
`process_files` again on `join(root, d)` for every `dirnames` entry and on
`join(root, f)` for every `filenames` entry of every walked root; a
non-directory path is processed exactly when `shouldProcess` accepts it,
and is otherwise skipped (logged, no error). -/
def process_files (p : String) (t : FS) : List String :=
  match t with
  | .file _ => if shouldProcess p then [p] else []
  | .dir nm cs =>
    ((fsWalk p (FS.dir nm cs)).attach.map (fun ri =>
      ((walkOrder ri.1.2).attach.map (fun c =>
        process_files (pathJoin ri.1.1 (fsName c.1)) c.1)).flatten)).flatten
termination_by sizeOf t
decreasing_by
  have key : ∀ (n : Nat) (u : FS) (q r : String) (its : List FS) (x : FS),
      sizeOf u ≤ n → (r, its) ∈ fsWalk q u → x ∈ its → sizeOf x < sizeOf u := by
    intro n
    induction n with
    | zero =>
      intro u q r its x hle hmem _
      cases u with
      | file s => simp [fsWalk] at hmem
      | dir nm2 cs2 =>
        simp only [FS.dir.sizeOf_spec] at hle
        omega
    | succ n ih =>
      intro u q r its x hle hmem hx
      cases u with
      | file s => simp [fsWalk] at hmem
      | dir nm2 cs2 =>
        simp only [fsWalk, List.mem_cons, List.mem_flatten, List.mem_map,
          List.mem_attach, true_and, Subtype.exists] at hmem
        rcases hmem with heq | ⟨l, ⟨cc, hccmem, hfw⟩, hl⟩
        · have h1 : its = cs2 := congrArg Prod.snd heq
          subst h1
          have := List.sizeOf_lt_of_mem hx
          simp only [FS.dir.sizeOf_spec]
          omega
        · have hcc2 : sizeOf cc < sizeOf (FS.dir nm2 cs2) := by
            have := List.sizeOf_lt_of_mem hccmem
            simp only [FS.dir.sizeOf_spec]
            omega
          have hccn : sizeOf cc ≤ n := by
            simp only [FS.dir.sizeOf_spec] at hle hcc2
            omega
          have := ih cc (pathJoin q (fsName cc)) r its x hccn (by rw [hfw]; exact hl) hx
          omega
  have hmem2 : c.1 ∈ ri.1.2 := by
    have hc := c.2
    simp only [walkOrder, List.mem_append, List.mem_filter] at hc
    rcases hc with h | h <;> exact h.1
  exact key _ _ p ri.1.1 ri.1.2 c.1 le_rfl (by simpa using ri.2) hmem2

@[simp] theorem digitVal_d0 : digitVal '0' = 0 := rfl

@[simp] theorem digitVal_d1 : digitVal '1' = 1 := rfl

@[simp] theorem digitVal_d2 : digitVal '2' = 2 := rfl

@[simp] theorem digitVal_d3 : digitVal '3' = 3 := rfl

@[simp] theorem digitVal_d4 : digitVal '4' = 4 := rfl

@[simp] theorem digitVal_d5 : digitVal '5' = 5 := rfl

@[simp] theorem digitVal_d6 : digitVal '6' = 6 := rfl

@[simp] theorem digitVal_d7 : digitVal '7' = 7 := rfl

@[simp] theorem digitVal_d8 : digitVal '8' = 8 := rfl

@[simp] theorem digitVal_d9 : digitVal '9' = 9 := rfl

theorem mem_dinsert {d : List (String × ℚ)} {k : String} {v : ℚ} {x : String × ℚ}
    (hx : x ∈ dinsert d k v) : x = (k, v) ∨ x ∈ d := by
  induction d with
  | nil => simpa [dinsert] using hx
  | cons p t ih =>
    simp only [dinsert] at hx
    split at hx
    · rcases List.mem_cons.mp hx with h1 | h1
      · exact Or.inl h1
      · exact Or.inr (List.mem_cons_of_mem _ h1)
    · rcases List.mem_cons.mp hx with h1 | h1
      · exact Or.inr (h1 ▸ List.mem_cons_self _ _)
      · rcases ih h1 with h2 | h2
        · exact Or.inl h2
        · exact Or.inr (List.mem_cons_of_mem _ h2)

theorem keys_dinsert_mem {d : List (String × ℚ)} {k : String} (v : ℚ)
    (h : k ∈ d.map Prod.fst) : (dinsert d k v).map Prod.fst = d.map Prod.fst := by
  induction d with
  | nil => simp at h
  | cons p t ih =>
    simp only [dinsert]
    split
    · rename_i he
      simp [he]
    · rename_i he
      have ht : k ∈ t.map Prod.fst := by
        rcases List.mem_map.mp h with ⟨y, hy, hyk⟩
        rcases List.mem_cons.mp hy with h1 | h1
        · exact absurd (h1 ▸ hyk) he
        · exact List.mem_map.mpr ⟨y, h1, hyk⟩
      simp [ih ht]

theorem keys_dinsert_not_mem {d : List (String × ℚ)} {k : String} (v : ℚ)
    (h : k ∉ d.map Prod.fst) :
    (dinsert d k v).map Prod.fst = d.map Prod.fst ++ [k] := by
  induction d with
  | nil => simp [dinsert]
  | cons p t ih =>
    simp only [List.map_cons, List.mem_cons] at h
    push_neg at h
    simp only [dinsert]
    split
    · rename_i he
      exact absurd he.symm h.1
    · simp [ih h.2]

theorem nodupKeys_dinsert {d : List (String × ℚ)} {k : String} (v : ℚ)
    (h : (d.map Prod.fst).Nodup) : ((dinsert d k v).map Prod.fst).Nodup := by
  by_cases hk : k ∈ d.map Prod.fst
  · rw [keys_dinsert_mem v hk]; exact h
  · rw [keys_dinsert_not_mem v hk]
    simp only [List.nodup_append, List.nodup_cons, List.not_mem_nil, not_false_iff,
      List.nodup_nil, and_true, true_and]
    constructor
    · exact h
    · intro x hx
      simp only [List.mem_singleton]
      intro hxk
      exact hk (hxk ▸ hx)

theorem find?_dinsert_self (d : List (String × ℚ)) (k : String) (v : ℚ) :
    (dinsert d k v).find? (keyIs k) = some (k, v) := by
  induction d with
  | nil => simp [dinsert, keyIs]
  | cons p t ih =>
    simp only [dinsert]
    split
    · exact List.find?_cons_of_pos _ (by simp [keyIs])
    · rename_i he
      rw [List.find?_cons_of_neg _ (by simp [keyIs, he]), ih]

theorem find?_dinsert_ne (d : List (String × ℚ)) {k' k : String} (v : ℚ) (hne : k' ≠ k) :
    (dinsert d k' v).find? (keyIs k) = d.find? (keyIs k) := by
  induction d with
  | nil => simp [dinsert, keyIs, hne]
  | cons p t ih =>
    simp only [dinsert]
    split
    · rename_i he
      rw [List.find?_cons_of_neg _ (by simp [keyIs, hne]),
        List.find?_cons_of_neg _ (by simp [keyIs, he ▸ hne])]
    · by_cases hp : p.1 = k
      · rw [List.find?_cons_of_pos _ (by simp [keyIs, hp]),
          List.find?_cons_of_pos _ (by simp [keyIs, hp])]
      · rw [List.find?_cons_of_neg _ (by simp [keyIs, hp]),
          List.find?_cons_of_neg _ (by simp [keyIs, hp]), ih]

theorem mem_pyDictFrom {l d : List (String × ℚ)} {x : String × ℚ}
    (hx : x ∈ pyDictFrom d l) : x ∈ d ∨ x ∈ l := by
  induction l generalizing d with
  | nil => exact Or.inl (by simpa [pyDictFrom] using hx)
  | cons p t ih =>
    rcases ih (by simpa [pyDictFrom, List.foldl_cons] using hx) with h | h
    · rcases mem_dinsert h with h1 | h1
      · exact Or.inr (by rw [h1]; exact List.mem_cons_self p t)
      · exact Or.inl h1
    · exact Or.inr (List.mem_cons_of_mem _ h)

theorem nodupKeys_pyDictFrom {l d : List (String × ℚ)}
    (h : (d.map Prod.fst).Nodup) : ((pyDictFrom d l).map Prod.fst).Nodup := by
  induction l generalizing d with
  | nil => simpa [pyDictFrom] using h
  | cons p t ih =>
    simpa [pyDictFrom, List.foldl_cons] using ih (nodupKeys_dinsert p.2 h)

theorem lastPair_cons (p : String × ℚ) (t : List (String × ℚ)) (k : String) :
    lastPair (p :: t) k = (lastPair t k).or ([p].find? (keyIs k)) := by
  simp only [lastPair, List.reverse_cons, List.find?_append]

theorem find?_pyDictFrom (l : List (String × ℚ)) (k : String) :
    ∀ d, (pyDictFrom d l).find? (keyIs k) = (lastPair l k).or (d.find? (keyIs k)) := by
  induction l with
  | nil => intro d; simp [pyDictFrom, lastPair]
  | cons p t ih =>
    intro d
    have step : (dinsert d p.1 p.2).find? (keyIs k) =
        ([p].find? (keyIs k)).or (d.find? (keyIs k)) := by
      by_cases hp : p.1 = k
      · subst hp
        rw [find?_dinsert_self]
        rw [List.find?_cons_of_pos _ (by simp [keyIs])]
        rfl
      · rw [find?_dinsert_ne _ _ hp, List.find?_cons_of_neg _ (by simp [keyIs, hp])]
        rfl
    calc (pyDictFrom d (p :: t)).find? (keyIs k)
        = (pyDictFrom (dinsert d p.1 p.2) t).find? (keyIs k) := by
          simp [pyDictFrom, List.foldl_cons]
      _ = (lastPair t k).or ((dinsert d p.1 p.2).find? (keyIs k)) := ih _
      _ = (lastPair t k).or (([p].find? (keyIs k)).or (d.find? (keyIs k))) := by rw [step]
      _ = ((lastPair t k).or ([p].find? (keyIs k))).or (d.find? (keyIs k)) := by
          rw [Option.or_assoc]
      _ = (lastPair (p :: t) k).or (d.find? (keyIs k)) := by rw [lastPair_cons]

theorem find?_isSome_iff_key_mem (l : List (String × ℚ)) (k : String) :
    (l.find? (keyIs k)).isSome ↔ k ∈ l.map Prod.fst := by
  rw [List.find?_isSome]
  constructor
  · rintro ⟨x, hx, hk⟩
    exact List.mem_map.mpr ⟨x, hx, by simpa [keyIs] using hk⟩
  · intro h
    rcases List.mem_map.mp h with ⟨x, hx, hk⟩
    exact ⟨x, hx, by simp [keyIs, hk]⟩

theorem insertDesc_perm (x : String × ℚ) (l : List (String × ℚ)) :
    (insertDesc x l).Perm (x :: l) := by
  induction l with
  | nil => exact List.Perm.refl _
  | cons y ys ih =>
    simp only [insertDesc]
    split
    · exact ((ih.cons y).trans (List.Perm.swap x y ys))
    · exact List.Perm.refl _

theorem sortDesc_perm (l : List (String × ℚ)) : (sortDesc l).Perm l := by
  induction l with
  | nil => exact List.Perm.refl _
  | cons x xs ih => exact (insertDesc_perm x (sortDesc xs)).trans (ih.cons x)

theorem pairwise_insertDesc {l : List (String × ℚ)} (x : String × ℚ)
    (h : l.Pairwise (fun a b => b.2 ≤ a.2)) :
    (insertDesc x l).Pairwise (fun a b => b.2 ≤ a.2) := by
  induction l with
  | nil => simp [insertDesc]
  | cons y ys ih =>
    simp only [insertDesc]
    split
    · rename_i hgt
      rcases List.pairwise_cons.mp h with ⟨hy, hys⟩
      refine List.pairwise_cons.mpr ⟨?_, ih hys⟩
      intro z hz
      rcases List.mem_cons.mp ((insertDesc_perm x ys).mem_iff.mp hz) with hzx | hzys
      · exact hzx ▸ le_of_lt hgt
      · exact hy z hzys
    · rename_i hle
      push_neg at hle
      refine List.pairwise_cons.mpr ⟨?_, h⟩
      intro z hz
      rcases List.mem_cons.mp hz with hzy | hzys
      · exact hzy ▸ hle
      · exact le_trans ((List.pairwise_cons.mp h).1 z hzys) hle

theorem sortDesc_pairwise (l : List (String × ℚ)) :
    (sortDesc l).Pairwise (fun a b => b.2 ≤ a.2) := by
  induction l with
  | nil => simp [sortDesc]
  | cons x xs ih => exact pairwise_insertDesc x ih

theorem filter_val_insertDesc (v : ℚ) (x : String × ℚ) (l : List (String × ℚ)) :
    (insertDesc x l).filter (fun p => decide (p.2 = v)) =
      (x :: l).filter (fun p => decide (p.2 = v)) := by
  induction l with
  | nil => rfl
  | cons y ys ih =>
    simp only [insertDesc]
    split
    · rename_i hgt
      by_cases hy : y.2 = v <;> by_cases hx : x.2 = v
      · exfalso
        rw [hy, hx] at hgt
        exact lt_irrefl v hgt
      · simp [List.filter_cons, hy, hx, ih]
      · simp [List.filter_cons, hy, hx, ih]
      · simp [List.filter_cons, hy, hx, ih]
    · rfl

theorem filter_val_sortDesc (v : ℚ) (l : List (String × ℚ)) :
    (sortDesc l).filter (fun p => decide (p.2 = v)) =
      l.filter (fun p => decide (p.2 = v)) := by
  induction l with
  | nil => rfl
  | cons x xs ih =>
    calc (insertDesc x (sortDesc xs)).filter (fun p => decide (p.2 = v))
        = (x :: sortDesc xs).filter (fun p => decide (p.2 = v)) :=
          filter_val_insertDesc v x (sortDesc xs)
      _ = (x :: xs).filter (fun p => decide (p.2 = v)) := by
          by_cases hx : x.2 = v <;> simp [List.filter_cons, hx, ih]

theorem find?_eq_head?_filter {α : Type} (l : List α) (f : α → Bool) :
    l.find? f = (l.filter f).head? := by
  induction l with
  | nil => rfl
  | cons a t ih =>
    by_cases h : f a
    · rw [List.find?_cons_of_pos _ h, List.filter_cons_of_pos h]
      rfl
    · rw [List.find?_cons_of_neg _ h, List.filter_cons_of_neg h, ih]

theorem all_eq_nodup_length_le_one {k : String} {xs : List String}
    (hnd : xs.Nodup) (hall : ∀ x ∈ xs, x = k) : xs.length ≤ 1 := by
  match xs with
  | [] => simp
  | [x] => simp
  | x :: y :: t =>
    exfalso
    have hx : x = k := hall x (List.mem_cons_self _ _)
    have hy : y = k := hall y (List.mem_cons_of_mem _ (List.mem_cons_self _ _))
    rcases List.nodup_cons.mp hnd with ⟨hnx, _⟩
    exact hnx (by rw [hx, hy.symm]; exact List.mem_cons_self _ _)

theorem find?_sortDesc_of_nodupKeys {l : List (String × ℚ)}
    (h : (l.map Prod.fst).Nodup) (k : String) :
    (sortDesc l).find? (keyIs k) = l.find? (keyIs k) := by
  have hperm : ((sortDesc l).filter (keyIs k)).Perm (l.filter (keyIs k)) :=
    (sortDesc_perm l).filter (keyIs k)
  have hlen : (l.filter (keyIs k)).length ≤ 1 := by
    have hsub : ((l.filter (keyIs k)).map Prod.fst).Sublist (l.map Prod.fst) :=
      (List.filter_sublist l).map Prod.fst
    have hnd2 : ((l.filter (keyIs k)).map Prod.fst).Nodup := hsub.nodup h
    have hall : ∀ x ∈ (l.filter (keyIs k)).map Prod.fst, x = k := by
      intro x hx
      rcases List.mem_map.mp hx with ⟨p, hp, hpk⟩
      have := List.of_mem_filter hp
      simpa [keyIs, hpk] using this
    have := all_eq_nodup_length_le_one hnd2 hall
    simpa using this
  rw [find?_eq_head?_filter, find?_eq_head?_filter]
  match hfl : l.filter (keyIs k), hlen2 : (l.filter (keyIs k)).length with
  | [], _ =>
    have : (sortDesc l).filter (keyIs k) = [] := by
      have := hperm
      rw [hfl] at this
      exact List.Perm.eq_nil this
    rw [this]
  | [a], _ =>
    have : (sortDesc l).filter (keyIs k) = [a] := by
      have := hperm
      rw [hfl] at this
      exact List.perm_singleton.mp this
    rw [this]
  | a :: b :: t, _ =>
    rw [hfl] at hlen
    simp at hlen

theorem parseRows_ok_iff (rows : List Row) :
    ∀ (d D : List (String × ℚ)),
      parseRows rows d = .ok D ↔
        ((∀ r ∈ rows, pyStartswith r.project "Total" = true →
            (parseFloat r.duration).isSome) ∧
          D = pyDictFrom d (extractTotals rows)) := by
  induction rows with
  | nil =>
    intro d D
    simp only [parseRows, extractTotals, List.filterMap_nil, pyDictFrom, List.foldl_nil]
    constructor
    · intro h
      exact ⟨by simp, by cases h; rfl⟩
    · rintro ⟨-, rfl⟩
      rfl
  | cons r rs ih =>
    intro d D
    by_cases hsel : pyStartswith r.project "Total"
    · cases hq : parseFloat r.duration with
      | some q =>
        have hext : extractTotals (r :: rs) =
            (pyDrop r.project 6, q / 8) :: extractTotals rs := by
          simp [extractTotals, List.filterMap_cons, hsel, hq]
        rw [show parseRows (r :: rs) d =
              parseRows rs (dinsert d (pyDrop r.project 6) (q / 8)) by
            simp [parseRows, hsel, hq]]
        rw [ih, hext]
        simp only [pyDictFrom, List.foldl_cons]
        constructor
        · rintro ⟨hall, rfl⟩
          refine ⟨?_, rfl⟩
          intro r' hr' hsel'
          rcases List.mem_cons.mp hr' with h1 | h1
          · rw [h1, hq]; rfl
          · exact hall r' h1 hsel'
        · rintro ⟨hall, rfl⟩
          exact ⟨fun r' hr' hsel' => hall r' (List.mem_cons_of_mem _ hr') hsel', rfl⟩
      | none =>
        rw [show parseRows (r :: rs) d = .error () by simp [parseRows, hsel, hq]]
        constructor
        · intro h
          cases h
        · rintro ⟨hall, -⟩
          have := hall r (List.mem_cons_self _ _) hsel
          rw [hq] at this
          cases this
    · have hext : extractTotals (r :: rs) = extractTotals rs := by
        simp [extractTotals, List.filterMap_cons, hsel]
      rw [show parseRows (r :: rs) d = parseRows rs d by simp [parseRows, hsel]]
      rw [ih, hext]
      constructor
      · rintro ⟨hall, rfl⟩
        refine ⟨?_, rfl⟩
        intro r' hr' hsel'
        rcases List.mem_cons.mp hr' with h1 | h1
        · exact absurd (h1 ▸ hsel') hsel
        · exact hall r' h1 hsel'
      · rintro ⟨hall, rfl⟩
        exact ⟨fun r' hr' hsel' => hall r' (List.mem_cons_of_mem _ hr') hsel', rfl⟩

theorem parse_qb_ok_iff (rows : List Row) (s : List (String × ℚ)) :
    parse_qb rows = .ok s ↔
      ((∀ r ∈ rows, pyStartswith r.project "Total" = true →
          (parseFloat r.duration).isSome) ∧
        s = sortDesc (pyDictFrom [] (extractTotals rows))) := by
  unfold parse_qb
  cases hP : parseRows rows [] with
  | error e =>
    simp only []
    constructor
    · intro h
      cases h
    · rintro ⟨hall, -⟩
      have := (parseRows_ok_iff rows [] (pyDictFrom [] (extractTotals rows))).mpr ⟨hall, rfl⟩
      rw [hP] at this
      cases this
  | ok d =>
    have hd := (parseRows_ok_iff rows [] d).mp hP
    simp only [Except.ok.injEq]
    constructor
    · rintro rfl
      exact ⟨hd.1, by rw [hd.2]⟩
    · rintro ⟨-, rfl⟩
      rw [hd.2]

theorem parse_qb_error_of_bad_duration {rows : List Row} {r : Row}
    (hr : r ∈ rows) (hsel : pyStartswith r.project "Total" = true)
    (hbad : parseFloat r.duration = none) : parse_qb rows = .error () := by
  cases h : parse_qb rows with
  | error e => cases e; rfl
  | ok s =>
    have := ((parse_qb_ok_iff rows s).mp h).1 r hr hsel
    rw [hbad] at this
    cases this

theorem key_mem_pyDict_iff (l : List (String × ℚ)) (k : String) :
    k ∈ (pyDictFrom [] l).map Prod.fst ↔ k ∈ l.map Prod.fst := by
  rw [← find?_isSome_iff_key_mem, find?_pyDictFrom]
  have : ([] : List (String × ℚ)).find? (keyIs k) = none := rfl
  rw [this, Option.or_none, lastPair]
  rw [find?_isSome_iff_key_mem]
  rw [List.map_reverse, List.mem_reverse]

/-- C1 counterexample: the row `("a", "Totalizer", "c", "d", "e", "f", "8")`
has a project label that does not begin with the six-character
`"Total "` (there is no space at position 5), yet `parse_qb` still gives it
a summary entry (`"zer" ↦ 1`), because the code only checks the
five-character `startswith('Total')`. -/
theorem c1_counterexample :
    parse_qb [⟨"a", "Totalizer", "c", "d", "e", "f", "8"⟩] = .ok [("zer", 1)] ∧
    pyStartswith "Totalizer" "Total " = false := by
  constructor
  · norm_num +decide [parse_qb, parseRows, parseFloat, parseFloatBody, pyStartswith, pyDrop,
      readNatDigits, dinsert, sortDesc, insertDesc]
  · rfl

/-- C1 (amended): a row contributes an entry to the summary only if its
project label begins with the five-character literal `"Total"`
(case-sensitive, no trailing space — the code checks
`startswith('Total')`); rows not matching this prefix are silently skipped
(no error, whatever their other fields hold), and a file with no matching
rows yields an empty summary. -/
theorem c1_selection_amended :
    (∀ rows : List Row, (∀ r ∈ rows, pyStartswith r.project "Total" = false) →
      parse_qb rows = .ok []) ∧
    (∀ (rows : List Row) (s : List (String × ℚ)), parse_qb rows = .ok s →
      ∀ kv ∈ s, ∃ r ∈ rows, pyStartswith r.project "Total" = true ∧
        kv.1 = pyDrop r.project 6) := by
  constructor
  · intro rows h
    have hext : extractTotals rows = [] := by
      rw [extractTotals, List.filterMap_eq_nil_iff]
      intro r hr
      simp [h r hr]
    rw [parse_qb_ok_iff]
    refine ⟨?_, ?_⟩
    · intro r hr hsel
      rw [h r hr] at hsel
      cases hsel
    · rw [hext]
      rfl
  · intro rows s hok kv hkv
    have hs := (parse_qb_ok_iff rows s).mp hok
    rw [hs.2] at hkv
    have hd : kv ∈ pyDictFrom [] (extractTotals rows) :=
      (sortDesc_perm _).mem_iff.mp hkv
    rcases mem_pyDictFrom hd with h0 | hext
    · cases h0
    · rcases List.mem_filterMap.mp hext with ⟨r, hr, hfr⟩
      by_cases hsel : pyStartswith r.project "Total"
      · refine ⟨r, hr, hsel, ?_⟩
        rw [if_pos hsel] at hfr
        rcases Option.map_eq_some'.mp hfr with ⟨q, -, hq2⟩
        rw [← hq2]
      · rw [if_neg hsel] at hfr
        cases hfr

/-- Witness for the amended C1: a file whose single row has the
non-matching label `"Alpha"` and a non-numeric duration is skipped
silently, giving the empty summary. -/
theorem c1_selection_amended_witness :
    parse_qb [⟨"a", "Alpha", "c", "d", "e", "f", "junk"⟩] = .ok [] := by
  refine c1_selection_amended.1 _ ?_
  intro r hr
  rcases List.mem_cons.mp hr with h | h
  · rw [h]
    rfl
  · cases h

/-- C2: every summary entry comes from a selected row, its key being the
row's project label with exactly the first six characters removed and its
value the parsed duration divided by 8; conversely every selected row's
stripped label is a key of the summary. -/
theorem c2_transformation :
    ∀ (rows : List Row) (s : List (String × ℚ)), parse_qb rows = .ok s →
      (∀ kv ∈ s, ∃ r ∈ rows, pyStartswith r.project "Total" = true ∧
        ∃ q : ℚ, parseFloat r.duration = some q ∧
          kv.1 = pyDrop r.project 6 ∧ kv.2 = q / 8) ∧
      (∀ r ∈ rows, pyStartswith r.project "Total" = true →
        pyDrop r.project 6 ∈ s.map Prod.fst) := by
  intro rows s hok
  have hs := (parse_qb_ok_iff rows s).mp hok
  constructor
  · intro kv hkv
    rw [hs.2] at hkv
    have hd : kv ∈ pyDictFrom [] (extractTotals rows) :=
      (sortDesc_perm _).mem_iff.mp hkv
    rcases mem_pyDictFrom hd with h0 | hext
    · cases h0
    · rcases List.mem_filterMap.mp hext with ⟨r, hr, hfr⟩
      by_cases hsel : pyStartswith r.project "Total"
      · rw [if_pos hsel] at hfr
        rcases Option.map_eq_some'.mp hfr with ⟨q, hq1, hq2⟩
        exact ⟨r, hr, hsel, q, hq1, by rw [← hq2], by rw [← hq2]⟩
      · rw [if_neg hsel] at hfr
        cases hfr
  · intro r hr hsel
    have hq := hs.1 r hr hsel
    rcases Option.isSome_iff_exists.mp hq with ⟨q, hq⟩
    have hmem : (pyDrop r.project 6, q / 8) ∈ extractTotals rows :=
      List.mem_filterMap.mpr ⟨r, hr, by rw [if_pos hsel, hq]; rfl⟩
    have hkey : pyDrop r.project 6 ∈ (extractTotals rows).map Prod.fst :=
      List.mem_map.mpr ⟨_, hmem, rfl⟩
    have hkey2 := (key_mem_pyDict_iff (extractTotals rows) _).mpr hkey
    rw [hs.2]
    exact ((sortDesc_perm _).map Prod.fst).mem_iff.mpr hkey2

/-- Witness for C2: the single row `("a", "Total Website", …, "16")`
yields the summary entry `"Website" ↦ 2`, and the stripped label is a key
of that summary. -/
theorem c2_transformation_witness :
    parse_qb [⟨"a", "Total Website", "c", "d", "e", "f", "16"⟩] =
      .ok [("Website", 2)] ∧
    pyDrop "Total Website" 6 ∈ ([(("Website" : String), (2 : ℚ))].map Prod.fst) := by
  have hp : parse_qb [(⟨"a", "Total Website", "c", "d", "e", "f", "16"⟩ : Row)] =
      .ok [("Website", 2)] := by
    norm_num +decide [parse_qb, parseRows, parseFloat, parseFloatBody, pyStartswith, pyDrop,
      readNatDigits, dinsert, sortDesc, insertDesc]
  exact ⟨hp, (c2_transformation _ _ hp).2 _ (List.mem_cons_self _ _) rfl⟩

/-- C3: the summary is ordered by non-increasing value (every adjacent
pair satisfies `v₂ ≤ v₁`), and for each value the entries carrying it
appear in exactly the order of the underlying insertion-ordered dict —
the stability guarantee of Python's stable `sorted`. -/
theorem c3_ordering :
    ∀ (rows : List Row) (s : List (String × ℚ)), parse_qb rows = .ok s →
      List.Chain' (fun a b : String × ℚ => b.2 ≤ a.2) s ∧
      ∀ v : ℚ, s.filter (fun p => decide (p.2 = v)) =
        (pyDictFrom [] (extractTotals rows)).filter (fun p => decide (p.2 = v)) := by
  intro rows s hok
  have hs := (parse_qb_ok_iff rows s).mp hok
  rw [hs.2]
  exact ⟨(sortDesc_pairwise _).chain', fun v => filter_val_sortDesc v _⟩

/-- Witness for C3: a file with projects booked 1, 2 and 1 days (in that
row order) sorts to 2, 1, 1 with the tied projects in original order, and
the result satisfies the adjacent-pair inequality. -/
theorem c3_ordering_witness :
    parse_qb [⟨"a", "Total A", "c", "d", "e", "f", "8"⟩,
        ⟨"a", "Total B", "c", "d", "e", "f", "16"⟩,
        ⟨"a", "Total C", "c", "d", "e", "f", "8"⟩] =
      .ok [("B", 2), ("A", 1), ("C", 1)] ∧
    List.Chain' (fun a b : String × ℚ => b.2 ≤ a.2)
      [(("B" : String), (2 : ℚ)), ("A", 1), ("C", 1)] := by
  have hp : parse_qb [(⟨"a", "Total A", "c", "d", "e", "f", "8"⟩ : Row),
      ⟨"a", "Total B", "c", "d", "e", "f", "16"⟩,
      ⟨"a", "Total C", "c", "d", "e", "f", "8"⟩] =
      .ok [("B", 2), ("A", 1), ("C", 1)] := by
    norm_num +decide [parse_qb, parseRows, parseFloat, parseFloatBody, pyStartswith, pyDrop,
      readNatDigits, dinsert, sortDesc, insertDesc]
  exact ⟨hp, (c3_ordering _ _ hp).1⟩

/-- C4: summary keys are distinct, and the entry found for any key is
exactly the one produced by the latest selected row binding that key
(last-wins, not summed). -/
theorem c4_last_wins :
    ∀ (rows : List Row) (s : List (String × ℚ)), parse_qb rows = .ok s →
      (s.map Prod.fst).Nodup ∧
      ∀ k : String, s.find? (keyIs k) = (extractTotals rows).reverse.find? (keyIs k) := by
  intro rows s hok
  have hs := (parse_qb_ok_iff rows s).mp hok
  have hnodup : ((pyDictFrom [] (extractTotals rows)).map Prod.fst).Nodup :=
    nodupKeys_pyDictFrom (by simp)
  constructor
  · rw [hs.2]
    exact (((sortDesc_perm _).map Prod.fst).nodup_iff).mpr hnodup
  · intro k
    rw [hs.2, find?_sortDesc_of_nodupKeys hnodup, find?_pyDictFrom]
    have : ([] : List (String × ℚ)).find? (keyIs k) = none := rfl
    rw [this, Option.or_none]
    rfl

/-- Witness for C4: two `"Total X"` rows with durations 8 then 24 give the
single entry `"X" ↦ 3` (24 / 8, the later row), found both in the summary
and as the last extracted binding. -/
theorem c4_last_wins_witness :
    parse_qb [⟨"a", "Total X", "c", "d", "e", "f", "8"⟩,
        ⟨"a", "Total X", "c", "d", "e", "f", "24"⟩] = .ok [("X", 3)] ∧
    ([(("X" : String), (3 : ℚ))].map Prod.fst).Nodup ∧
    [(("X" : String), (3 : ℚ))].find? (keyIs "X") =
      (extractTotals [⟨"a", "Total X", "c", "d", "e", "f", "8"⟩,
        ⟨"a", "Total X", "c", "d", "e", "f", "24"⟩]).reverse.find? (keyIs "X") := by
  have hp : parse_qb [(⟨"a", "Total X", "c", "d", "e", "f", "8"⟩ : Row),
      ⟨"a", "Total X", "c", "d", "e", "f", "24"⟩] = .ok [("X", 3)] := by
    norm_num +decide [parse_qb, parseRows, parseFloat, parseFloatBody, pyStartswith, pyDrop,
      readNatDigits, dinsert, sortDesc, insertDesc]
  exact ⟨hp, (c4_last_wins _ _ hp).1, (c4_last_wins _ _ hp).2 "X"⟩

/-- C6: a file containing a selected "Total" row whose duration does not
parse as a number makes `parse_qb` raise (model: return the error), and
the per-file pipeline aborts with that unhandled `ValueError` before any
chart or CSV output is produced. -/
theorem c6_bad_duration_aborts :
    ∀ (args : Args) (avail : Bool) (fin : String) (rows : List Row) (r : Row),
      r ∈ rows → pyStartswith r.project "Total" = true →
      parseFloat r.duration = none →
      parse_qb rows = .error () ∧
      processFile args avail fin rows = ([], .error .valueError) := by
  intro args avail fin rows r hr hsel hbad
  have herr := parse_qb_error_of_bad_duration hr hsel hbad
  exact ⟨herr, by rw [processFile, herr]⟩

/-- Witness for C6: the single row `("a", "Total X", …, "abc")` aborts the
file with a `ValueError` and produces no outputs. -/
theorem c6_bad_duration_aborts_witness :
    parse_qb [⟨"a", "Total X", "c", "d", "e", "f", "abc"⟩] = .error () ∧
    processFile ⟨false, false, false⟩ true "proj.csv"
      [⟨"a", "Total X", "c", "d", "e", "f", "abc"⟩] = ([], .error .valueError) :=
  c6_bad_duration_aborts ⟨false, false, false⟩ true "proj.csv" _ _
    (List.mem_cons_self _ _) rfl rfl

/-- C5 evaluation (code bug): with plotting requested and matplotlib or
numpy unavailable, `create_chart` logs its informational message but then
falls through to `np.arange(len(hours))`, where the unbound `np` raises a
`NameError`; the pipeline aborts with that error and the CSV write for the
file never happens, contradicting the claim that charting problems are
non-fatal. -/
theorem c5_chart_unavailable_crashes :
    create_chart false [] = ([chartMsg], .error .nameError) ∧
    processFile ⟨true, false, false⟩ false "proj.csv" [] =
      ([chartMsg], .error .nameError) :=
  ⟨rfl, rfl⟩

theorem process_files_dir_eq_walk (p nm : String) (cs : List FS) :
    process_files p (FS.dir nm cs) =
      ((fsWalk p (FS.dir nm cs)).map (fun r =>
        ((walkOrder r.2).map (fun c =>
          process_files (pathJoin r.1 (fsName c)) c)).flatten)).flatten := by
  rw [process_files]
  rw [List.attach_map_val (fsWalk p (FS.dir nm cs))
    (fun r => ((walkOrder r.2).attach.map (fun c =>
      process_files (pathJoin r.1 (fsName c.1)) c.1)).flatten)]
  have hfun : (fun (r : String × List FS) => ((walkOrder r.2).attach.map (fun c =>
      process_files (pathJoin r.1 (fsName c.1)) c.1)).flatten) =
      (fun r => ((walkOrder r.2).map (fun c =>
        process_files (pathJoin r.1 (fsName c)) c)).flatten) := by
    funext r
    rw [List.attach_map_val (walkOrder r.2)
      (fun c => process_files (pathJoin r.1 (fsName c)) c)]
  rw [hfun]

theorem walk_part_eq (p : String) (cs : List FS) :
    (((cs.map (fun c => fsWalk (pathJoin p (fsName c)) c)).flatten).map (fun r =>
        ((walkOrder r.2).map (fun c =>
          process_files (pathJoin r.1 (fsName c)) c)).flatten)).flatten =
      (cs.map (fun c =>
        if fsIsDir c then process_files (pathJoin p (fsName c)) c else [])).flatten := by
  induction cs with
  | nil => rfl
  | cons c t ih =>
    rw [List.map_cons, List.flatten_cons, List.map_append, List.flatten_append, ih,
      List.map_cons, List.flatten_cons]
    congr 1
    cases c with
    | file n => simp [fsWalk, fsIsDir]
    | dir m cs2 =>
      simp only [fsIsDir, if_pos]
      exact (process_files_dir_eq_walk _ _ _).symm

theorem process_files_dir (p nm : String) (cs : List FS) :
    process_files p (FS.dir nm cs) =
      ((walkOrder cs).map (fun c => process_files (pathJoin p (fsName c)) c)).flatten ++
      (cs.map (fun c =>
        if fsIsDir c then process_files (pathJoin p (fsName c)) c else [])).flatten := by
  rw [process_files_dir_eq_walk, fsWalk]
  rw [List.attach_map_val cs (fun c => fsWalk (pathJoin p (fsName c)) c)]
  rw [List.map_cons, List.flatten_cons]
  congr 1
  exact walk_part_eq p cs

theorem process_files_file (p n : String) :
    process_files p (FS.file n) = if shouldProcess p then [p] else [] := by
  simp [process_files]

/-- C9: traversing a flat directory processes exactly the files whose name
ends in `.csv` or `.CSV` (exactly those two casings), in order; every other
file is skipped without error.  In particular a directory holding `a.csv`
and `b.txt` processes only `a.csv`. -/
theorem c9_csv_selection :
    (∀ (p nm : String) (names : List String),
      process_files p (FS.dir nm (names.map FS.file)) =
        (names.map (pathJoin p)).filter shouldProcess) ∧
    process_files "d" (FS.dir "d" [FS.file "a.csv", FS.file "b.txt"]) =
      [pathJoin "d" "a.csv"] := by
  have main : ∀ (p nm : String) (names : List String),
      process_files p (FS.dir nm (names.map FS.file)) =
        (names.map (pathJoin p)).filter shouldProcess := by
    intro p nm names
    rw [process_files_dir]
    have h1 : walkOrder (names.map FS.file) = names.map FS.file := by
      rw [walkOrder]
      have ha : (names.map FS.file).filter fsIsDir = [] := by
        rw [List.filter_eq_nil_iff]
        intro c hc
        rcases List.mem_map.mp hc with ⟨n, -, rfl⟩
        simp [fsIsDir]
      have hb : (names.map FS.file).filter (fun c => !fsIsDir c) = names.map FS.file := by
        rw [List.filter_eq_self]
        intro c hc
        rcases List.mem_map.mp hc with ⟨n, -, rfl⟩
        simp [fsIsDir]
      rw [ha, hb, List.nil_append]
    have h2 : ((names.map FS.file).map (fun c =>
        if fsIsDir c then process_files (pathJoin p (fsName c)) c else [])).flatten = [] := by
      rw [List.flatten_eq_nil_iff]
      intro l hl
      rcases List.mem_map.mp hl with ⟨c, hc, rfl⟩
      rcases List.mem_map.mp hc with ⟨n, -, rfl⟩
      simp [fsIsDir]
    rw [h1, h2, List.append_nil]
    clear h1 h2
    induction names with
    | nil => rfl
    | cons n t ih =>
      rw [List.map_cons, List.map_cons, List.flatten_cons, ih, List.map_cons,
        List.filter_cons]
      simp only [fsName, process_files_file]
      by_cases hn : shouldProcess (pathJoin p n)
      · simp [hn]
      · simp [hn]
  refine ⟨main, ?_⟩
  have h := main "d" "d" ["a.csv", "b.txt"]
  have h2 : process_files "d" (FS.dir "d" [FS.file "a.csv", FS.file "b.txt"]) =
      (["a.csv", "b.txt"].map (pathJoin "d")).filter shouldProcess := h
  rw [h2]
  rfl

/-- C10: because `process_files` recurses on every `dirnames` entry of
every `os.walk` root while `os.walk` itself already descends into every
subdirectory, a `.csv` file inside a subdirectory of the given directory is
opened and processed twice (its outputs rewritten), while a `.csv` file
directly at the top level is processed exactly once. -/
theorem c10_nested_double_processing :
    ∀ (dd dn ss ff gg : String),
      shouldProcess (pathJoin (pathJoin dd ss) ff) = true →
      shouldProcess (pathJoin dd gg) = true →
      pathJoin (pathJoin dd ss) ff ≠ pathJoin dd gg →
      process_files dd (FS.dir dn [FS.dir ss [FS.file ff], FS.file gg]) =
        [pathJoin (pathJoin dd ss) ff, pathJoin dd gg,
          pathJoin (pathJoin dd ss) ff] ∧
      (process_files dd (FS.dir dn [FS.dir ss [FS.file ff], FS.file gg])).count
          (pathJoin (pathJoin dd ss) ff) = 2 ∧
      (process_files dd (FS.dir dn [FS.dir ss [FS.file ff], FS.file gg])).count
          (pathJoin dd gg) = 1 := by
  intro dd dn ss ff gg hf hg hne
  have hsub : process_files (pathJoin dd ss) (FS.dir ss [FS.file ff]) =
      [pathJoin (pathJoin dd ss) ff] := by
    rw [process_files_dir]
    have h1 : walkOrder [FS.file ff] = [FS.file ff] := by
      rw [walkOrder]
      rfl
    rw [h1]
    simp only [List.map_cons, List.map_nil, List.flatten_cons, List.flatten_nil,
      fsName, fsIsDir, process_files_file]
    rw [if_pos hf]
    rfl
  have hmain : process_files dd (FS.dir dn [FS.dir ss [FS.file ff], FS.file gg]) =
      [pathJoin (pathJoin dd ss) ff, pathJoin dd gg, pathJoin (pathJoin dd ss) ff] := by
    rw [process_files_dir]
    have h1 : walkOrder [FS.dir ss [FS.file ff], FS.file gg] =
        [FS.dir ss [FS.file ff], FS.file gg] := by
      rw [walkOrder]
      rfl
    rw [h1]
    simp only [List.map_cons, List.map_nil, List.flatten_cons, List.flatten_nil,
      fsName, fsIsDir, process_files_file, if_pos, if_neg, Bool.false_eq_true,
      not_false_eq_true, List.append_nil]
    rw [hsub, if_pos hg]
    rfl
  refine ⟨hmain, ?_, ?_⟩
  · rw [hmain]
    have hbeq : ((pathJoin dd gg == pathJoin (pathJoin dd ss) ff) : Bool) = false := by
      rw [beq_eq_false_iff_ne]
      exact fun h => hne h.symm
    simp [List.count_cons, hbeq]
  · rw [hmain]
    have hbeq : ((pathJoin (pathJoin dd ss) ff == pathJoin dd gg) : Bool) = false := by
      rw [beq_eq_false_iff_ne]
      exact hne
    simp [List.count_cons, hbeq]

/-- Witness for C10: the directory `top` containing `sub/a.csv` and
`b.csv` processes `top/sub/a.csv` twice and `top/b.csv` once. -/
theorem c10_nested_double_processing_witness :
    process_files "top" (FS.dir "top" [FS.dir "sub" [FS.file "a.csv"], FS.file "b.csv"]) =
      ["top/sub/a.csv", "top/b.csv", "top/sub/a.csv"] ∧
    (process_files "top"
        (FS.dir "top" [FS.dir "sub" [FS.file "a.csv"], FS.file "b.csv"])).count
      "top/sub/a.csv" = 2 ∧
    (process_files "top"
        (FS.dir "top" [FS.dir "sub" [FS.file "a.csv"], FS.file "b.csv"])).count
      "top/b.csv" = 1 := by
  have h := c10_nested_double_processing "top" "top" "sub" "a.csv" "b.csv" rfl rfl
    (by decide)
  exact h

@[simp] theorem charOfNat_c48 : Char.ofNat 48 = '0' := rfl

@[simp] theorem charOfNat_c49 : Char.ofNat 49 = '1' := rfl

@[simp] theorem charOfNat_c50 : Char.ofNat 50 = '2' := rfl

@[simp] theorem charOfNat_c51 : Char.ofNat 51 = '3' := rfl

@[simp] theorem charOfNat_c52 : Char.ofNat 52 = '4' := rfl

@[simp] theorem charOfNat_c53 : Char.ofNat 53 = '5' := rfl

@[simp] theorem charOfNat_c54 : Char.ofNat 54 = '6' := rfl

@[simp] theorem charOfNat_c55 : Char.ofNat 55 = '7' := rfl

@[simp] theorem charOfNat_c56 : Char.ofNat 56 = '8' := rfl

@[simp] theorem charOfNat_c57 : Char.ofNat 57 = '9' := rfl

theorem charOfNat_digit {d : Nat} (hd : d < 10) :
    digitVal (Char.ofNat (48 + d)) = d ∧ (Char.ofNat (48 + d)).isDigit = true ∧
      Char.ofNat (48 + d) ≠ '.' := by
  interval_cases d <;> exact ⟨by decide, by decide, by decide⟩

theorem readNat_aux (L : List Nat) : ∀ a : Nat, (∀ d ∈ L, d < 10) →
    (L.reverse.map (fun d => Char.ofNat (48 + d))).foldl
        (fun n c => 10 * n + digitVal c) a =
      a * 10 ^ L.length + Nat.ofDigits 10 L := by
  induction L with
  | nil =>
    intro a _
    simp [Nat.ofDigits_nil]
  | cons d ds ih =>
    intro a hall
    rw [List.reverse_cons, List.map_append, List.foldl_append]
    rw [ih a (fun x hx => hall x (List.mem_cons_of_mem _ hx))]
    simp only [List.map_cons, List.map_nil, List.foldl_cons, List.foldl_nil]
    rw [(charOfNat_digit (hall d (List.mem_cons_self _ _))).1, Nat.ofDigits_cons,
      List.length_cons]
    ring

theorem natDigitsBE_spec (n : Nat) :
    readNatDigits (natDigitsBE n) = n ∧ natDigitsBE n ≠ [] ∧
      ∀ c ∈ natDigitsBE n, c.isDigit = true ∧ c ≠ '.' := by
  by_cases hn : n = 0
  · subst hn
    refine ⟨rfl, by decide, ?_⟩
    intro c hc
    rw [show natDigitsBE 0 = ['0'] from rfl] at hc
    rcases List.mem_singleton.mp hc with rfl
    exact ⟨by decide, by decide⟩
  · rw [natDigitsBE, if_neg hn]
    have hall : ∀ d ∈ Nat.digits 10 n, d < 10 := fun d hd =>
      Nat.digits_lt_base (by norm_num) hd
    refine ⟨?_, ?_, ?_⟩
    · rw [readNatDigits, ← List.map_reverse, readNat_aux (Nat.digits 10 n) 0 hall,
        Nat.ofDigits_digits]
      ring
    · simp only [ne_eq, List.reverse_eq_nil_iff, List.map_eq_nil_iff]
      exact Nat.digits_ne_nil_iff_ne_zero.mpr hn
    · intro c hc
      rw [List.mem_reverse] at hc
      rcases List.mem_map.mp hc with ⟨d, hd, rfl⟩
      exact ⟨(charOfNat_digit (hall d hd)).2.1, (charOfNat_digit (hall d hd)).2.2⟩

theorem natDigitsBE_len_le {n k : Nat} (hk : 1 ≤ k) (h : n < 10 ^ k) :
    (natDigitsBE n).length ≤ k := by
  by_cases hn : n = 0
  · subst hn
    rw [show natDigitsBE 0 = ['0'] from rfl]
    simpa using hk
  · rw [natDigitsBE, if_neg hn]
    simp only [List.length_reverse, List.length_map]
    have h1 := Nat.base_pow_length_digits_le 10 n (by norm_num) hn
    have h2 : 10 ^ (Nat.digits 10 n).length < 10 ^ (k + 1) := by
      calc 10 ^ (Nat.digits 10 n).length ≤ 10 * n := h1
        _ < 10 * 10 ^ k := by omega
        _ = 10 ^ (k + 1) := by ring
    have h3 := (Nat.pow_lt_pow_iff_right (by norm_num : 1 < 10)).mp h2
    omega

theorem readNat_replicate_zero (m : Nat) (X : List Char) :
    readNatDigits (List.replicate m '0' ++ X) = readNatDigits X := by
  induction m with
  | zero => rfl
  | succ m ih =>
    rw [List.replicate_succ, List.cons_append, readNatDigits, List.foldl_cons]
    exact ih

theorem padDigits_spec {k f : Nat} (hk : 1 ≤ k) (hf : f < 10 ^ k) :
    readNatDigits (padDigits k f) = f ∧ (padDigits k f).length = k ∧
      padDigits k f ≠ [] ∧ ∀ c ∈ padDigits k f, c.isDigit = true ∧ c ≠ '.' := by
  have hlen := natDigitsBE_len_le hk hf
  have hspec := natDigitsBE_spec f
  refine ⟨?_, ?_, ?_, ?_⟩
  · rw [padDigits, readNat_replicate_zero, hspec.1]
  · rw [padDigits, List.length_append, List.length_replicate]
    omega
  · rw [padDigits]
    intro hcon
    exact hspec.2.1 (List.append_eq_nil.mp hcon).2
  · intro c hc
    rcases List.mem_append.mp (by rw [padDigits] at hc; exact hc) with h1 | h1
    · rcases List.eq_of_mem_replicate h1 with rfl
      exact ⟨by decide, by decide⟩
    · exact hspec.2.2 c h1

theorem takeWhile_no_dot {L R : List Char} (h : ∀ c ∈ L, c ≠ '.') :
    (L ++ '.' :: R).takeWhile (fun c => c ≠ '.') = L := by
  induction L with
  | nil => simp [List.takeWhile_cons]
  | cons c t ih =>
    rw [List.cons_append, List.takeWhile_cons]
    have hc := h c (List.mem_cons_self _ _)
    rw [if_pos (decide_eq_true hc)]
    rw [ih (fun x hx => h x (List.mem_cons_of_mem _ hx))]

theorem dropWhile_no_dot {L R : List Char} (h : ∀ c ∈ L, c ≠ '.') :
    (L ++ '.' :: R).dropWhile (fun c => c ≠ '.') = '.' :: R := by
  induction L with
  | nil => simp [List.dropWhile_cons]
  | cons c t ih =>
    rw [List.cons_append, List.dropWhile_cons]
    have hc := h c (List.mem_cons_self _ _)
    rw [if_pos (decide_eq_true hc)]
    exact ih (fun x hx => h x (List.mem_cons_of_mem _ hx))

theorem parseFloatBody_decimal (I F : List Char)
    (hI : ∀ c ∈ I, c.isDigit = true ∧ c ≠ '.') (hIne : I ≠ [])
    (hF : ∀ c ∈ F, c.isDigit = true ∧ c ≠ '.') :
    parseFloatBody (I ++ '.' :: F) =
      some ((readNatDigits I : ℚ) + (readNatDigits F : ℚ) / (10 : ℚ) ^ F.length) := by
  have hInd : ∀ c ∈ I, c ≠ '.' := fun c hc => (hI c hc).2
  simp only [parseFloatBody]
  rw [takeWhile_no_dot hInd, dropWhile_no_dot hInd]
  rw [show ('.' :: F).isEmpty = false from rfl]
  simp only [Bool.false_eq_true, if_false, List.tail_cons]
  rw [if_pos]
  simp only [Bool.and_eq_true, List.all_eq_true]
  refine ⟨⟨fun c hc => (hI c hc).1, fun c hc => (hF c hc).1⟩, ?_⟩
  cases I with
  | nil => exact absurd rfl hIne
  | cons a b => rfl

theorem parseFloat_mk_digit {cs : List Char} {c0 : Char}
    (hc0 : cs.head? = some c0) (hdig : c0.isDigit = true) :
    parseFloat ⟨cs⟩ = parseFloatBody cs := by
  have hm : c0 ≠ '-' := by
    intro h
    rw [h] at hdig
    exact absurd hdig (by decide)
  have hp : c0 ≠ '+' := by
    intro h
    rw [h] at hdig
    exact absurd hdig (by decide)
  simp only [parseFloat]
  have h1 : (decide (cs.head? = some '-')) = false := by simp [hc0, hm]
  have h2 : (decide (cs.head? = some '+')) = false := by simp [hc0, hp]
  rw [h1, h2]
  cases hb : parseFloatBody cs with
  | none => simp [hb]
  | some x => simp [hb]

theorem parseFloat_mk_neg (cs : List Char) :
    parseFloat ⟨'-' :: cs⟩ = (parseFloatBody cs).map (fun x => -x) := by
  simp only [parseFloat]
  simp only [List.head?_cons, List.tail_cons]
  cases hb : parseFloatBody cs with
  | none => simp [hb]
  | some x => simp [hb]

theorem decExpQ_spec {d k : Nat} (h : decExpQ d = some k) : d ∣ 10 ^ k := by
  rw [decExpQ] at h
  have h2 := List.find?_some h
  simp only [decide_eq_true_eq] at h2
  exact h2

theorem dvd_ten_pow_self {d e : Nat} (h : d ∣ 10 ^ e) : d ∣ 10 ^ d := by
  induction d using Nat.strong_induction_on generalizing e with
  | _ d ih =>
    rcases Nat.eq_zero_or_pos d with rfl | hd0
    · exact absurd (Nat.eq_zero_of_zero_dvd h) (pow_ne_zero e (by norm_num))
    · by_cases h2 : 2 ∣ d
      · obtain ⟨d', rfl⟩ := h2
        have hd'0 : 0 < d' := by omega
        have hdvd' : d' ∣ 10 ^ e := dvd_trans (Nat.dvd_mul_left d' 2) h
        have hrec : d' ∣ 10 ^ d' := ih d' (by omega) hdvd'
        calc 2 * d' ∣ 2 * 10 ^ d' := mul_dvd_mul_left 2 hrec
          _ ∣ 10 * 10 ^ d' := mul_dvd_mul_right (by norm_num) _
          _ = 10 ^ (d' + 1) := by ring
          _ ∣ 10 ^ (2 * d') := pow_dvd_pow 10 (by omega)
      · by_cases h5 : 5 ∣ d
        · obtain ⟨d', rfl⟩ := h5
          have hd'0 : 0 < d' := by omega
          have hdvd' : d' ∣ 10 ^ e := dvd_trans (Nat.dvd_mul_left d' 5) h
          have hrec : d' ∣ 10 ^ d' := ih d' (by omega) hdvd'
          calc 5 * d' ∣ 5 * 10 ^ d' := mul_dvd_mul_left 5 hrec
            _ ∣ 10 * 10 ^ d' := mul_dvd_mul_right (by norm_num) _
            _ = 10 ^ (d' + 1) := by ring
            _ ∣ 10 ^ (5 * d') := pow_dvd_pow 10 (by omega)
        · have hcop : Nat.Coprime d 10 := by
            rw [show (10 : Nat) = 2 * 5 from rfl, Nat.coprime_mul_iff_right]
            exact ⟨Nat.coprime_comm.mp (Nat.Prime.coprime_iff_not_dvd Nat.prime_two |>.mpr h2),
              Nat.coprime_comm.mp (Nat.Prime.coprime_iff_not_dvd Nat.prime_five |>.mpr h5)⟩
          have hd1 : d = 1 := (hcop.pow_right e).eq_one_of_dvd h
          rw [hd1]
          exact one_dvd _

theorem decExpQ_isSome_of_dvd {d e : Nat} (hd : d ∣ 10 ^ e) : ∃ k, decExpQ d = some k := by
  have hdd : d ∣ 10 ^ d := dvd_ten_pow_self hd
  have hs : (decExpQ d).isSome := by
    rw [decExpQ, List.find?_isSome]
    exact ⟨d, List.mem_range.mpr (by omega), decide_eq_true hdd⟩
  exact Option.isSome_iff_exists.mp hs

theorem parseFloatBody_decChars (k : Nat) (m : Nat) :
    parseFloatBody (decChars m k) = some ((m : ℚ) / (10 : ℚ) ^ k) := by
  by_cases hk : k = 0
  · subst hk
    rw [decChars, if_pos rfl]
    have hspec := natDigitsBE_spec m
    rw [show natDigitsBE m ++ ['.', '0'] = natDigitsBE m ++ '.' :: ['0'] from rfl]
    rw [parseFloatBody_decimal _ _ hspec.2.2 hspec.2.1 ?hF]
    case hF =>
      intro c hc
      rcases List.mem_singleton.mp hc with rfl
      exact ⟨by decide, by decide⟩
    rw [hspec.1, show readNatDigits ['0'] = 0 from rfl]
    norm_num
  · have hk1 : 1 ≤ k := Nat.one_le_iff_ne_zero.mpr hk
    rw [decChars, if_neg hk]
    have hmod : m % 10 ^ k < 10 ^ k := Nat.mod_lt _ (by positivity)
    have hpad := padDigits_spec hk1 hmod
    have hspec := natDigitsBE_spec (m / 10 ^ k)
    rw [parseFloatBody_decimal _ _ hspec.2.2 hspec.2.1 hpad.2.2.2]
    rw [hspec.1, hpad.1, hpad.2.1]
    simp only [Option.some.injEq]
    rw [eq_div_iff (by positivity : ((10 : ℚ) ^ k) ≠ 0)]
    rw [add_mul, div_mul_cancel₀ _ (by positivity : ((10 : ℚ) ^ k) ≠ 0)]
    have hdm : (m / 10 ^ k) * 10 ^ k + m % 10 ^ k = m := by
      rw [Nat.mul_comm]
      exact Nat.div_add_mod m (10 ^ k)
    exact_mod_cast congrArg (fun n : Nat => (n : ℚ)) hdm

theorem decChars_head_digit (m k : Nat) :
    ∃ c0, (decChars m k).head? = some c0 ∧ c0.isDigit = true := by
  by_cases hk : k = 0
  · subst hk
    rw [decChars, if_pos rfl]
    have hspec := natDigitsBE_spec m
    cases hh : natDigitsBE m with
    | nil => exact absurd hh hspec.2.1
    | cons c0 t =>
      refine ⟨c0, by simp, ?_⟩
      exact (hspec.2.2 c0 (by rw [hh]; exact List.mem_cons_self _ _)).1
  · rw [decChars, if_neg hk]
    have hspec := natDigitsBE_spec (m / 10 ^ k)
    cases hh : natDigitsBE (m / 10 ^ k) with
    | nil => exact absurd hh hspec.2.1
    | cons c0 t =>
      refine ⟨c0, by simp, ?_⟩
      exact (hspec.2.2 c0 (by rw [hh]; exact List.mem_cons_self _ _)).1

theorem parseFloat_showDays {q : ℚ} {k : Nat} (h : decExpQ q.den = some k) :
    parseFloat (showDays q) = some q := by
  have hdvd : q.den ∣ 10 ^ k := decExpQ_spec h
  have hcmul : q.den * (10 ^ k / q.den) = 10 ^ k := Nat.mul_div_cancel' hdvd
  have hc0 : (10 ^ k / q.den) ≠ 0 := by
    intro h0
    rw [h0, Nat.mul_zero] at hcmul
    exact (pow_ne_zero k (by norm_num : (10 : ℕ) ≠ 0)) hcmul.symm
  have h10 : ((10 : ℚ) ^ k) = (q.den : ℚ) * ((10 ^ k / q.den : ℕ) : ℚ) := by
    exact_mod_cast (congrArg (fun n : Nat => (n : ℚ)) hcmul).symm
  have hcQ : ((10 ^ k / q.den : ℕ) : ℚ) ≠ 0 := Nat.cast_ne_zero.mpr hc0
  have hval : ((q.num.natAbs * (10 ^ k / q.den) : ℕ) : ℚ) / (10 : ℚ) ^ k =
      ((q.num.natAbs : ℕ) : ℚ) / (q.den : ℚ) := by
    rw [h10, Nat.cast_mul]
    exact mul_div_mul_right _ _ hcQ
  simp only [showDays, h]
  by_cases hneg : q.num < 0
  · rw [if_pos hneg]
    show parseFloat ⟨'-' :: decChars (q.num.natAbs * (10 ^ k / q.den)) k⟩ = some q
    rw [parseFloat_mk_neg, parseFloatBody_decChars, Option.map_some', hval]
    have habs : ((q.num.natAbs : ℕ) : ℚ) = -((q.num : ℚ)) := by
      have h1 : ((q.num.natAbs : ℕ) : ℤ) = -q.num :=
        Int.ofNat_natAbs_of_nonpos (le_of_lt hneg)
      calc ((q.num.natAbs : ℕ) : ℚ) = (((q.num.natAbs : ℕ) : ℤ) : ℚ) := by
            rw [Int.cast_natCast]
        _ = ((-q.num : ℤ) : ℚ) := by rw [h1]
        _ = -((q.num : ℚ)) := by rw [Int.cast_neg]
    rw [habs]
    rw [neg_div, neg_neg, Rat.num_div_den]
  · rw [if_neg hneg]
    rw [List.nil_append]
    obtain ⟨c0, hc0h, hdig⟩ := decChars_head_digit (q.num.natAbs * (10 ^ k / q.den)) k
    rw [@parseFloat_mk_digit (decChars (q.num.natAbs * (10 ^ k / q.den)) k) c0 hc0h hdig]
    rw [parseFloatBody_decChars, hval]
    have habs : ((q.num.natAbs : ℕ) : ℚ) = ((q.num : ℚ)) := by
      have h1 : ((q.num.natAbs : ℕ) : ℤ) = q.num :=
        Int.natAbs_of_nonneg (le_of_not_lt hneg)
      calc ((q.num.natAbs : ℕ) : ℚ) = (((q.num.natAbs : ℕ) : ℤ) : ℚ) := by
            rw [Int.cast_natCast]
        _ = ((q.num : ℤ) : ℚ) := by rw [h1]
    rw [habs, Rat.num_div_den]

theorem den_int_div_nat_dvd (a : ℤ) (b : ℕ) : (((a : ℚ)) / ((b : ℚ))).den ∣ b := by
  have hd := Rat.den_dvd a (b : ℤ)
  rw [Rat.divInt_eq_div, Int.cast_natCast] at hd
  exact_mod_cast hd

theorem parseFloatBody_den {cs : List Char} {x : ℚ} (h : parseFloatBody cs = some x) :
    ∃ e, x.den ∣ 10 ^ e := by
  have hint : ∀ n : ℕ, ∃ e, ((n : ℚ)).den ∣ 10 ^ e := fun n =>
    ⟨0, by rw [Rat.den_natCast]; exact one_dvd _⟩
  have hfrac : ∀ i f L : ℕ, ∃ e, ((i : ℚ) + (f : ℚ) / (10 : ℚ) ^ L).den ∣ 10 ^ e := by
    intro i f L
    refine ⟨L, ?_⟩
    have hform : (i : ℚ) + (f : ℚ) / (10 : ℚ) ^ L =
        (((i * 10 ^ L + f : ℕ) : ℤ) : ℚ) / ((10 ^ L : ℕ) : ℚ) := by
      rw [eq_div_iff (by positivity : (((10 ^ L : ℕ) : ℚ)) ≠ 0)]
      push_cast
      have hpow : ((10 : ℚ) ^ L) ≠ 0 := by positivity
      field_simp
    rw [hform]
    exact den_int_div_nat_dvd _ _
  simp only [parseFloatBody] at h
  split_ifs at h
  all_goals try cases h
  all_goals first
    | exact hint _
    | exact hfrac _ _ _

theorem parseFloat_den {s : String} {x : ℚ} (h : parseFloat s = some x) :
    ∃ e, x.den ∣ 10 ^ e := by
  simp only [parseFloat] at h
  rcases Option.map_eq_some'.mp h with ⟨y, hy, hxy⟩
  rcases parseFloatBody_den hy with ⟨e, he⟩
  refine ⟨e, ?_⟩
  rw [← hxy]
  split_ifs
  · rw [show ((-1 : ℚ)) * y = -y by ring, show (-y).den = y.den from rfl]
    exact he
  · rw [one_mul]
    exact he

theorem den_div_eight {q : ℚ} {e : Nat} (h : q.den ∣ 10 ^ e) :
    (q / 8).den ∣ 10 ^ (e + 3) := by
  have h1 : q / 8 = ((q.num : ℚ)) / ((q.den * 8 : ℕ) : ℚ) := by
    conv_lhs => rw [← Rat.num_div_den q]
    rw [div_div]
    congr 1
    push_cast
    ring
  rw [h1]
  have h2 := den_int_div_nat_dvd q.num (q.den * 8)
  calc (((q.num : ℚ)) / ((q.den * 8 : ℕ) : ℚ)).den ∣ q.den * 8 := h2
    _ ∣ 10 ^ e * 8 := mul_dvd_mul_right h 8
    _ ∣ 10 ^ e * 1000 := mul_dvd_mul_left _ (by norm_num)
    _ = 10 ^ (e + 3) := by ring

theorem mem_summary_mem_extract {rows : List Row} {s : List (String × ℚ)}
    (hok : parse_qb rows = .ok s) {kv : String × ℚ} (hkv : kv ∈ s) :
    kv ∈ extractTotals rows := by
  have hs := (parse_qb_ok_iff rows s).mp hok
  rw [hs.2] at hkv
  rcases mem_pyDictFrom ((sortDesc_perm _).mem_iff.mp hkv) with h0 | hext
  · cases h0
  · exact hext

theorem summary_value_decExpQ {rows : List Row} {s : List (String × ℚ)}
    (hok : parse_qb rows = .ok s) :
    ∀ kv ∈ s, ∃ k, decExpQ kv.2.den = some k := by
  intro kv hkv
  have hext := mem_summary_mem_extract hok hkv
  rcases List.mem_filterMap.mp hext with ⟨r, -, hfr⟩
  by_cases hsel : pyStartswith r.project "Total"
  · rw [if_pos hsel] at hfr
    rcases Option.map_eq_some'.mp hfr with ⟨q, hq1, hq2⟩
    rcases parseFloat_den hq1 with ⟨e, he⟩
    have hden : kv.2.den ∣ 10 ^ (e + 3) := by
      rw [← hq2]
      exact den_div_eight he
    exact decExpQ_isSome_of_dvd hden
  · rw [if_neg hsel] at hfr
    cases hfr

theorem string_eta (s : String) : (⟨s.data⟩ : String) = s := rfl

theorem intercalate_singleton (s x : List Char) : List.intercalate s [x] = x := by
  simp [List.intercalate]

theorem intercalate_cons_ne (s x : List Char) (t : List (List Char)) (h : t ≠ []) :
    List.intercalate s (x :: t) = x ++ s ++ List.intercalate s t := by
  cases t with
  | nil => exact absurd rfl h
  | cons y u =>
    simp only [List.intercalate, List.intersperse_cons_cons]
    simp [List.flatten, List.append_assoc]

theorem scanCsv_inQ_escape (f : List Char) :
    ∀ (rest cur : List Char) (row : List String) (acc : List (List String)),
      scanCsv .inQ (escapeQuotes f ++ '"' :: rest) cur row acc =
        scanCsv .postQ rest (cur ++ f) row acc := by
  induction f with
  | nil =>
    intro rest cur row acc
    rw [show escapeQuotes [] = [] from rfl, List.nil_append]
    simp [scanCsv]
  | cons c f' ih =>
    intro rest cur row acc
    by_cases hc : c = '"'
    · subst hc
      rw [show escapeQuotes ('"' :: f') = '"' :: '"' :: escapeQuotes f' from by
        rw [escapeQuotes, if_pos rfl]]
      rw [List.cons_append, List.cons_append]
      rw [show scanCsv .inQ ('"' :: ('"' :: (escapeQuotes f' ++ '"' :: rest))) cur row acc =
        scanCsv .postQ ('"' :: (escapeQuotes f' ++ '"' :: rest)) cur row acc from by
          simp [scanCsv]]
      rw [show scanCsv .postQ ('"' :: (escapeQuotes f' ++ '"' :: rest)) cur row acc =
        scanCsv .inQ (escapeQuotes f' ++ '"' :: rest) (cur ++ ['"']) row acc from by
          simp [scanCsv]]
      rw [ih]
      congr 1
      simp
    · rw [show escapeQuotes (c :: f') = c :: escapeQuotes f' from by
        rw [escapeQuotes, if_neg hc]]
      rw [List.cons_append]
      rw [show scanCsv .inQ (c :: (escapeQuotes f' ++ '"' :: rest)) cur row acc =
        scanCsv .inQ (escapeQuotes f' ++ '"' :: rest) (cur ++ [c]) row acc from by
          simp [scanCsv, hc]]
      rw [ih]
      congr 1
      simp

theorem scanCsv_field (f : String) (rest : List Char) (row : List String)
    (acc : List (List String)) :
    scanCsv .atField (quoteField f ++ rest) [] row acc =
      scanCsv .postQ rest f.data row acc := by
  have hshape : quoteField f ++ rest = '"' :: (escapeQuotes f.data ++ '"' :: rest) := by
    rw [quoteField]
    simp
  rw [hshape]
  rw [show scanCsv .atField ('"' :: (escapeQuotes f.data ++ '"' :: rest)) [] row acc =
    scanCsv .inQ (escapeQuotes f.data ++ '"' :: rest) [] row acc from by simp [scanCsv]]
  rw [scanCsv_inQ_escape]
  rw [List.nil_append]

theorem scanCsv_serRow (fields : List String) (hne : fields ≠ []) :
    ∀ (rest : List Char) (row : List String) (acc : List (List String)),
      scanCsv .atField (serRow fields ++ rest) [] row acc =
        scanCsv .atField rest [] [] (acc ++ [row ++ fields]) := by
  induction fields with
  | nil => exact absurd rfl hne
  | cons f fs ih =>
    intro rest row acc
    cases fs with
    | nil =>
      rw [serRow, List.map_cons, List.map_nil, intercalate_singleton]
      rw [List.append_assoc, List.singleton_append, scanCsv_field]
      rw [show scanCsv .postQ ('\n' :: rest) f.data row acc =
        scanCsv .atField rest [] [] (acc ++ [row ++ [(⟨f.data⟩ : String)]]) from by
          simp [scanCsv]]
    | cons f2 fs2 =>
      rw [serRow, List.map_cons, intercalate_cons_ne _ _ _ (by simp)]
      rw [show ((quoteField f ++ [','] ++
            List.intercalate [','] ((f2 :: fs2).map quoteField)) ++ ['\n']) ++ rest =
          quoteField f ++ ',' ::
            (List.intercalate [','] ((f2 :: fs2).map quoteField) ++ '\n' :: rest) from by
        simp [List.append_assoc]]
      rw [scanCsv_field]
      rw [show scanCsv .postQ
          (',' :: (List.intercalate [','] ((f2 :: fs2).map quoteField) ++ '\n' :: rest))
          f.data row acc =
        scanCsv .atField
          (List.intercalate [','] ((f2 :: fs2).map quoteField) ++ '\n' :: rest)
          [] (row ++ [(⟨f.data⟩ : String)]) acc from by simp [scanCsv]]
      rw [string_eta]
      have hser : serRow (f2 :: fs2) ++ rest =
          List.intercalate [','] ((f2 :: fs2).map quoteField) ++ '\n' :: rest := by
        rw [serRow]
        simp [List.append_assoc]
      rw [← hser, ih (by simp)]
      rw [List.append_assoc]
      rfl

theorem scanCsv_rows (rows : List (List String)) (hne : ∀ r ∈ rows, r ≠ []) :
    ∀ acc, scanCsv .atField ((rows.map serRow).flatten) [] [] acc = some (acc ++ rows) := by
  induction rows with
  | nil =>
    intro acc
    simp [scanCsv]
  | cons r rs ih =>
    intro acc
    rw [List.map_cons, List.flatten_cons]
    rw [scanCsv_serRow r (hne r (List.mem_cons_self _ _))]
    rw [List.nil_append]
    rw [ih (fun x hx => hne x (List.mem_cons_of_mem _ hx))]
    rw [List.append_assoc]
    rfl

theorem readCsv_serializeCsv (rows : List (List String)) (hne : ∀ r ∈ rows, r ≠ []) :
    readCsv (serializeCsv rows) = some rows := by
  rw [readCsv, serializeCsv, string_eta]
  have := scanCsv_rows rows hne []
  rw [List.nil_append] at this
  exact this

/-- C7: the end-to-end scenario.  The three-row file with `Total Alpha`
(40 h), `Total Beta` (8 h) and a non-matching detail row parses to the
summary `[("Alpha", 5), ("Beta", 1)]` in that order; with export enabled
the pipeline writes `proj_out.csv` whose records are the header
`Project,Days` followed by `Alpha,5.0` and `Beta,1.0`, with the values
rendered as plain decimal days. -/
theorem c7_end_to_end :
    parse_qb [⟨"a", "Total Alpha", "c", "2020-01-01", "", "", "40"⟩,
        ⟨"a", "Total Beta", "c", "2020-01-02", "", "", "8"⟩,
        ⟨"a", "Alpha", "c", "2020-01-01", "Jane", "Billable", "4"⟩] =
      .ok [("Alpha", 5), ("Beta", 1)] ∧
    write_csv "proj.csv" [("Alpha", 5), ("Beta", 1)] =
      ("proj_out.csv", [["Project", "Days"], ["Alpha", "5.0"], ["Beta", "1.0"]]) ∧
    processFile ⟨false, false, false⟩ true "proj.csv"
        [⟨"a", "Total Alpha", "c", "2020-01-01", "", "", "40"⟩,
          ⟨"a", "Total Beta", "c", "2020-01-02", "", "", "8"⟩,
          ⟨"a", "Alpha", "c", "2020-01-01", "Jane", "Billable", "4"⟩] =
      ([], .ok ⟨none, false, some ("proj_out.csv",
        [["Project", "Days"], ["Alpha", "5.0"], ["Beta", "1.0"]])⟩) := by
  have hp : parse_qb [(⟨"a", "Total Alpha", "c", "2020-01-01", "", "", "40"⟩ : Row),
      ⟨"a", "Total Beta", "c", "2020-01-02", "", "", "8"⟩,
      ⟨"a", "Alpha", "c", "2020-01-01", "Jane", "Billable", "4"⟩] =
      .ok [("Alpha", 5), ("Beta", 1)] := by
    norm_num +decide [parse_qb, parseRows, parseFloat, parseFloatBody, pyStartswith,
      pyDrop, readNatDigits, dinsert, sortDesc, insertDesc]
  have h5 : showDays (5 : ℚ) = "5.0" := by
    rw [showDays, show decExpQ (5 : ℚ).den = some 0 from rfl]
    norm_num +decide [decChars, natDigitsBE, Nat.digits_def']
  have h1 : showDays (1 : ℚ) = "1.0" := by
    rw [showDays, show decExpQ (1 : ℚ).den = some 0 from rfl]
    norm_num +decide [decChars, natDigitsBE, Nat.digits_def']
  have hw : write_csv "proj.csv" [("Alpha", 5), ("Beta", 1)] =
      ("proj_out.csv", [["Project", "Days"], ["Alpha", "5.0"], ["Beta", "1.0"]]) := by
    rw [write_csv, show splitextStem "proj.csv" = "proj" from rfl]
    rw [List.map_cons, List.map_cons, List.map_nil]
    rw [show (("Alpha", (5 : ℚ)).1 : String) = "Alpha" from rfl,
      show (("Alpha", (5 : ℚ)).2 : ℚ) = 5 from rfl,
      show (("Beta", (1 : ℚ)).1 : String) = "Beta" from rfl,
      show (("Beta", (1 : ℚ)).2 : ℚ) = 1 from rfl, h5, h1]
    rfl
  refine ⟨hp, hw, ?_⟩
  rw [processFile, hp]
  simp only [Bool.or_self, Bool.false_eq_true, if_false]
  rw [hw]

/-- C8: writing a summary with `write_csv` (unix-dialect quote-all
serialisation) and re-reading the text with the CSV reader reproduces the
written records exactly; and the data records (ignoring the header row),
with their value field parsed back as a float, give exactly the original
project→value pairs in the original order. -/
theorem c8_csv_roundtrip :
    ∀ (rows : List Row) (s : List (String × ℚ)) (fin : String),
      parse_qb rows = .ok s →
      readCsv (serializeCsv (write_csv fin s).2) = some ((write_csv fin s).2) ∧
      ((write_csv fin s).2.drop 1).map
          (fun f => (f.headD "", parseFloat ((f.drop 1).headD ""))) =
        s.map (fun kv => (kv.1, some kv.2)) := by
  intro rows s fin hok
  constructor
  · apply readCsv_serializeCsv
    intro r hr
    rw [show (write_csv fin s).2 =
      ["Project", "Days"] :: s.map (fun p => [p.1, showDays p.2]) from rfl] at hr
    rcases List.mem_cons.mp hr with rfl | hmem
    · simp
    · rcases List.mem_map.mp hmem with ⟨p, -, rfl⟩
      simp
  · rw [show ((write_csv fin s).2.drop 1) =
      s.map (fun p => [p.1, showDays p.2]) from rfl]
    rw [List.map_map]
    apply List.map_congr_left
    intro kv hkv
    simp only [Function.comp]
    rw [show (([kv.1, showDays kv.2] : List String).headD "") = kv.1 from rfl,
      show ((([kv.1, showDays kv.2] : List String).drop 1).headD "") =
        showDays kv.2 from rfl]
    rcases summary_value_decExpQ hok kv hkv with ⟨k, hk⟩
    rw [parseFloat_showDays hk]

/-- Witness for C8: the round trip on the one-project summary produced by
the `"Total Website"` row. -/
theorem c8_csv_roundtrip_witness :
    readCsv (serializeCsv
        (write_csv "proj.csv" [(("Website" : String), (2 : ℚ))]).2) =
      some ((write_csv "proj.csv" [(("Website" : String), (2 : ℚ))]).2) ∧
    ((write_csv "proj.csv" [(("Website" : String), (2 : ℚ))]).2.drop 1).map
        (fun f => (f.headD "", parseFloat ((f.drop 1).headD ""))) =
      [(("Website" : String), some (2 : ℚ))] := by
  have hp : parse_qb [(⟨"a", "Total Website", "c", "d", "e", "f", "16"⟩ : Row)] =
      .ok [("Website", 2)] := by
    norm_num +decide [parse_qb, parseRows, parseFloat, parseFloatBody, pyStartswith,
      pyDrop, readNatDigits, dinsert, sortDesc, insertDesc]
  exact c8_csv_roundtrip _ _ "proj.csv" hp
